import Mathlib

/-!
Verification of the capability / progress-accounting layer of the
timely-dataflow execution core.

Source files embedded from `src/`:
  * `src/dataflow/operators/handles.rs` (`InputHandle`, `OutputHandle`)
  * `src/execute.rs` (`execute` and the per-worker driver loop)

The collaborating types (`CountMap`, `Capability` with `mint`/`clone`/
`delayed`/drop, the pull/push `Counter`s and the `Buffer`/`Session` pair)
belong to this repository but their files are not part of the excerpt, so
they are modelled from the specification, as marked on each definition.

Mutation through `Rc<RefCell<...>>` is embedded as explicit state passing:
every operation that mutates the shared `CountMap` takes the map and
returns the updated map.
-/

/-- Modelled from the spec: the Outstanding-Count Map
(`progress::count_map::CountMap`, not in `src/`): a mapping from timestamp
to signed integer delta.  `apply` adds a delta to the entry for a
timestamp, creating it at 0 if absent; `drain` hands the accumulated
deltas to the external progress tracker and resets the map to empty. -/
structure CountMap (T : Type) where
  updates : List (T × Int)
deriving DecidableEq

/-- The empty Outstanding-Count Map. -/
def CountMap.empty {T : Type} : CountMap T := ⟨[]⟩

/-- Helper for `CountMap.apply`: add `delta` to the entry for `t` in an
association list, creating the entry (at 0, then adding) if absent. -/
def updateEntry {T : Type} [DecidableEq T] :
    List (T × Int) → T → Int → List (T × Int)
  | [], t, delta => [(t, 0 + delta)]
  | (t0, c) :: rest, t, delta =>
      if t = t0 then (t0, c + delta) :: rest
      else (t0, c) :: updateEntry rest t delta

/-- Modelled from the spec: `apply(timestamp, delta)` adds `delta` to the
entry for `timestamp`, creating it at 0 if absent. -/
def CountMap.apply {T : Type} [DecidableEq T]
    (m : CountMap T) (t : T) (delta : Int) : CountMap T :=
  ⟨updateEntry m.updates t delta⟩

/-- Modelled from the spec: drain returns the deltas accumulated since the
last drain and resets the map to empty. -/
def CountMap.drain {T : Type} (m : CountMap T) :
    List (T × Int) × CountMap T :=
  (m.updates, CountMap.empty)

/-- The net count currently recorded for timestamp `t`. -/
def CountMap.count {T : Type} [DecidableEq T] (m : CountMap T) (t : T) : Int :=
  (m.updates.filter (fun p => p.1 = t)).foldl (fun a p => a + p.2) 0

/-- The sum of all deltas currently recorded in the map. -/
def CountMap.total {T : Type} (m : CountMap T) : Int :=
  (m.updates.map Prod.snd).sum

/-- Modelled from the spec: `Capability<T>`
(`dataflow::operators::capability`, not in `src/`): a permission token
bound to one timestamp; the shared Outstanding-Count Map it mutates is
passed explicitly. -/
structure Capability (T : Type) where
  time : T
deriving DecidableEq

/-- Modelled from the spec: `mint` (imported in `handles.rs` as
`mint_capability`) creates a fresh `Capability` at `t` bound to the given
map, recording `+1` at `t`. -/
def mint {T : Type} [DecidableEq T] (t : T) (internal : CountMap T) :
    Capability T × CountMap T :=
  (⟨t⟩, internal.apply t 1)

/-- Modelled from the spec: `clone()` applies `+1` at `time()` to the
shared map and returns a new independent `Capability` at the same
timestamp. -/
def Capability.clone {T : Type} [DecidableEq T]
    (cap : Capability T) (internal : CountMap T) :
    Capability T × CountMap T :=
  mint cap.time internal

/-- Modelled from the spec: `delayed(t')` requires `time() ≤ t'` and fails
(programming-error class) if violated; on success it applies `+1` at `t'`
and `-1` at `time()` as one step and returns a new `Capability` at `t'`.
The failing path is embedded as `none`. -/
def Capability.delayed {T : Type} [DecidableEq T] [LE T]
    [DecidableRel (fun a b : T => a ≤ b)]
    (cap : Capability T) (t2 : T) (internal : CountMap T) :
    Option (Capability T × CountMap T) :=
  if cap.time ≤ t2 then
    some (⟨t2⟩, (internal.apply t2 1).apply cap.time (-1))
  else
    none

/-- Modelled from the spec: dropping a `Capability` applies `-1` at its
timestamp. -/
def Capability.release {T : Type} [DecidableEq T]
    (cap : Capability T) (internal : CountMap T) : CountMap T :=
  internal.apply cap.time (-1)

/-- A capability operation applied against one Outstanding-Count Map,
keyed by the timestamps involved: mint at `t`, clone of a capability at
`t`, delay of a capability at `t` to `t'`, drop of a capability at `t`. -/
inductive CapOp (T : Type) where
  | mintOp (t : T)
  | cloneOp (t : T)
  | delayedOp (t t2 : T)
  | dropOp (t : T)

/-- The map mutation each capability operation performs, per the spec:
mint and clone record `+1` at the timestamp, delay records `+1` at the
target and `-1` at the origin, drop records `-1` at the timestamp. -/
def applyOp {T : Type} [DecidableEq T] (m : CountMap T) :
    CapOp T → CountMap T
  | .mintOp t => m.apply t 1
  | .cloneOp t => m.apply t 1
  | .delayedOp t t2 => (m.apply t2 1).apply t (-1)
  | .dropOp t => m.apply t (-1)

/-- Run a sequence of capability operations against a map. -/
def applyOps {T : Type} [DecidableEq T]
    (ops : List (CapOp T)) (m : CountMap T) : CountMap T :=
  ops.foldl applyOp m

/-- An operation is valid when any `delayed` satisfies the `time() ≤ t'`
requirement; invalid `delayed` calls abort and reach no state. -/
def validOp {T : Type} [LE T] [DecidableRel (fun a b : T => a ≤ b)] :
    CapOp T → Bool
  | .delayedOp t t2 => decide (t ≤ t2)
  | _ => true

/-- Number of mint operations in a sequence. -/
def mints {T : Type} (ops : List (CapOp T)) : Nat :=
  (ops.filter fun o => match o with | .mintOp _ => true | _ => false).length

/-- Number of clone operations in a sequence. -/
def clones {T : Type} (ops : List (CapOp T)) : Nat :=
  (ops.filter fun o => match o with | .cloneOp _ => true | _ => false).length

/-- Number of delay operations in a sequence; each contributes one
"delay-in" (`+1` at the target) and one "delay-out" (`-1` at the origin). -/
def delays {T : Type} (ops : List (CapOp T)) : Nat :=
  (ops.filter fun o => match o with | .delayedOp _ _ => true | _ => false).length

/-- Number of drop operations in a sequence. -/
def drops {T : Type} (ops : List (CapOp T)) : Nat :=
  (ops.filter fun o => match o with | .dropOp _ => true | _ => false).length

/-- The net contribution of one operation to the sum of map deltas. -/
def CapOp.net {T : Type} : CapOp T → Int
  | .mintOp _ => 1
  | .cloneOp _ => 1
  | .delayedOp _ _ => 0
  | .dropOp _ => -1

/-- Modelled from the spec: the pull-side `Counter`
(`dataflow::channels::pullers::Counter`, not in `src/`): wraps the raw
inbound channel (a queue of pending timestamp-batch pairs) and the
channel-level accounting it decrements on each successful receive. -/
structure PullCounter (T D : Type) where
  queue : List (T × List D)
  consumed : CountMap T
deriving DecidableEq

/-- Modelled from the spec: `Consume-Counter.next()` pulls the next
available inbound batch; on success it applies `-1` at that timestamp to
the channel-level counter and returns the pair; it returns `none` when the
channel is currently exhausted, leaving the counter untouched. -/
def PullCounter.next {T D : Type} [DecidableEq T] (pc : PullCounter T D) :
    Option (T × List D) × PullCounter T D :=
  match pc.queue with
  | [] => (none, pc)
  | (t, content) :: rest => (some (t, content), ⟨rest, pc.consumed.apply t (-1)⟩)

/-- `InputHandle` from `src/dataflow/operators/handles.rs`: a pull counter
and the operator's shared Outstanding-Count Map (`internal`). -/
structure InputHandle (T D : Type) where
  pull_counter : PullCounter T D
  internal : CountMap T
deriving DecidableEq

/-- `InputHandle::next` from `src/dataflow/operators/handles.rs`: calls
`pull_counter.next()` and maps a successful pull to a freshly minted
capability at the received time (recording `+1` in `internal`) paired
with the batch. -/
def InputHandle.next {T D : Type} [DecidableEq T] (ih : InputHandle T D) :
    Option (Capability T × List D) × InputHandle T D :=
  match ih.pull_counter.next with
  | (none, pc2) => (none, { ih with pull_counter := pc2 })
  | (some (t, content), pc2) =>
      let minted := mint t ih.internal
      (some (minted.1, content), ⟨pc2, minted.2⟩)

/-- `InputHandle::for_each` from `src/dataflow/operators/handles.rs`:
repeatedly calls `next` until exhaustion, invoking `logic` with the
capability and batch; the capability handed to `logic` goes out of scope
at the end of the iteration, recording its `-1` (unless `logic` itself
adjusted the map by storing or cloning it, which the `logic` parameter
models as a map transformation). -/
def InputHandle.for_each {T D : Type} [DecidableEq T]
    (ih : InputHandle T D)
    (logic : Capability T → List D → CountMap T → CountMap T) :
    InputHandle T D :=
  match h : ih.next with
  | (none, ih2) => ih2
  | (some (cap, content), ih2) =>
      InputHandle.for_each
        { ih2 with internal := (logic cap content ih2.internal).apply cap.time (-1) }
        logic
termination_by ih.pull_counter.queue.length
decreasing_by
  have hlen : ih2.pull_counter.queue.length < ih.pull_counter.queue.length := by
    cases hq : ih.pull_counter.queue with
    | nil =>
        exfalso
        simp [InputHandle.next, PullCounter.next, hq] at h
    | cons hd tl =>
        obtain ⟨t, content2⟩ := hd
        simp [InputHandle.next, PullCounter.next, hq, mint] at h
        simp [← h.2, hq]
  exact hlen

/-- Reference fold for `for_each`: for each queued batch in order, mint
(`+1` at its time), run `logic` on the post-mint map, then drop the
capability (`-1` at its time). -/
def processQueue {T D : Type} [DecidableEq T]
    (logic : Capability T → List D → CountMap T → CountMap T) :
    List (T × List D) → CountMap T → CountMap T
  | [], m => m
  | (t, content) :: rest, m =>
      processQueue logic rest
        ((logic ⟨t⟩ content (m.apply t 1)).apply t (-1))

/-- Modelled from the spec: the push-side `Counter`
(`dataflow::channels::pushers::Counter`, not in `src/`): wraps the raw
outbound channel; `push` applies `+1` per flushed batch at its timestamp
to the downstream channel accounting and forwards the batch. -/
structure PushCounter (T D : Type) where
  produced : CountMap T
  pushed : List (T × List D)
deriving DecidableEq

/-- Modelled from the spec: pushing a flushed batch downstream applies
`+1` at its timestamp and appends the batch to the raw channel. -/
def PushCounter.push {T D : Type} [DecidableEq T]
    (pc : PushCounter T D) (t : T) (batch : List D) : PushCounter T D :=
  ⟨pc.produced.apply t 1, pc.pushed ++ [(t, batch)]⟩

/-- Modelled from the spec: the `Buffer`
(`dataflow::channels::pushers::buffer::Buffer`, not in `src/`): a
per-timestamp staging area holding the timestamp it is currently bound to,
the staged records, and the push counter it flushes through. -/
structure Buffer (T D : Type) where
  time : Option T
  buffer : List D
  pusher : PushCounter T D
deriving DecidableEq

/-- Modelled from the spec: flushing pushes the staged records (if any)
through the push counter under the bound timestamp and leaves the staging
area empty. -/
def Buffer.flush {T D : Type} [DecidableEq T] (buf : Buffer T D) :
    Buffer T D :=
  match buf.time with
  | some t =>
      if buf.buffer.isEmpty then buf
      else { buf with buffer := [], pusher := buf.pusher.push t buf.buffer }
  | none => buf

/-- Modelled from the spec: `session(capability)` rebinds the buffer to
`capability.time()`, first flushing any records staged under a different
timestamp so timestamps are never mixed. -/
def Buffer.session {T D : Type} [DecidableEq T]
    (buf : Buffer T D) (cap : Capability T) : Buffer T D :=
  let buf2 := if buf.time = some cap.time then buf else buf.flush
  { buf2 with time := some cap.time }

/-- Flush threshold for the staging area.  Modelled from the spec: records
accumulate until a capacity trigger; the scenario of §8 requires the
threshold to exceed 100 records. -/
def flushThreshold : Nat := 256

/-- Modelled from the spec: sending through a session stages one record
under the bound timestamp, flushing when the capacity threshold is
reached. -/
def Buffer.give {T D : Type} [DecidableEq T]
    (buf : Buffer T D) (d : D) : Buffer T D :=
  let buf2 := { buf with buffer := buf.buffer ++ [d] }
  if buf2.buffer.length = flushThreshold then buf2.flush else buf2

/-- Stage each record of a list in order through the session. -/
def Buffer.giveMany {T D : Type} [DecidableEq T]
    (buf : Buffer T D) (ds : List D) : Buffer T D :=
  ds.foldl Buffer.give buf

/-- `OutputHandle` from `src/dataflow/operators/handles.rs`: a thin facade
over the shared push buffer, exposing only `session`. -/
structure OutputHandle (T D : Type) where
  push_buffer : Buffer T D
deriving DecidableEq

/-- `OutputHandle::session` from `src/dataflow/operators/handles.rs`:
delegates to `push_buffer.session(cap)`, scoping one send operation to
`cap.time()`. -/
def OutputHandle.session {T D : Type} [DecidableEq T]
    (oh : OutputHandle T D) (cap : Capability T) : OutputHandle T D :=
  ⟨oh.push_buffer.session cap⟩

/-- Modelled from the spec: the guaranteed flush when the Output Handle's
scope ends, so partial batches are never silently dropped. -/
def OutputHandle.scopeEnd {T D : Type} [DecidableEq T]
    (oh : OutputHandle T D) : OutputHandle T D :=
  ⟨oh.push_buffer.flush⟩

/-- Modelled from the spec: `Root`, the per-worker dataflow context
(`dataflow::scopes::Root`, not in `src/`), built from the worker's
communication allocator. -/
structure Root (A : Type) where
  allocator : A

/-- Modelled from the spec: `Root::new(allocator)`. -/
def Root.new {A : Type} (a : A) : Root A := ⟨a⟩

/-- The `while root.step() { }` loop of `src/execute.rs`, embedded with
explicit state and fuel; `step` is the external operator scheduler
(`Root::step`, not in `src/`).  The worker's captured result rides along
unchanged as the second component. -/
def stepLoop {A T : Type} (step : Root A → Root A × Bool) :
    Nat → Root A × T → Root A × T
  | 0, s => s
  | fuel + 1, s =>
      let stepped := step s.1
      if stepped.2 then stepLoop step fuel (stepped.1, s.2)
      else (stepped.1, s.2)

/-- The per-worker closure of `execute` in `src/execute.rs`: build a fresh
`Root` from the allocator, run `func` on it capturing its result, run the
step loop to completion, and return the captured result. -/
def workerLogic {A T : Type} (func : Root A → Root A × T)
    (step : Root A → Root A × Bool) (fuel : Nat) (allocator : A) : T :=
  let root := Root.new allocator
  let res := func root
  (stepLoop step fuel (res.1, res.2)).2

/-- `execute` from `src/execute.rs`; `initialize` (external
`timely_communication`) is modelled from the spec as spawning one worker
per allocator, each running the per-worker closure; joining the returned
`WorkerGuards` yields the per-worker results in order. -/
def execute {A T : Type} (allocators : List A)
    (func : Root A → Root A × T) (step : Root A → Root A × Bool)
    (fuel : Nat) : List T :=
  allocators.map (workerLogic func step fuel)

/-- The no-op operator logic: neither stores nor clones the capability, so
it leaves the shared map untouched. -/
def noopLogic {T D : Type} : Capability T → List D → CountMap T → CountMap T :=
  fun _ _ m => m

/-- Concrete input handle with one pending batch at timestamp 5. -/
def ihOne : InputHandle Nat Nat :=
  ⟨⟨[(5, [7])], CountMap.empty⟩, CountMap.empty⟩

/-- Concrete input handle with an exhausted channel. -/
def ihExhausted : InputHandle Nat Nat :=
  ⟨⟨[], CountMap.empty⟩, CountMap.empty⟩

/-- Concrete input handle with three pending batches at timestamps
2, 2, 3 (scenario B of the spec). -/
def ihScenarioB : InputHandle Nat Nat :=
  ⟨⟨[(2, [10]), (2, [11]), (3, [12])], CountMap.empty⟩, CountMap.empty⟩

/-- Concrete output handle with an empty, unbound buffer. -/
def ohFresh : OutputHandle Nat Nat := ⟨⟨none, [], ⟨CountMap.empty, []⟩⟩⟩

/-- The 100 records of scenario C. -/
def recsC : List Nat := List.range 100

theorem total_updateEntry {T : Type} [DecidableEq T]
    (l : List (T × Int)) (t : T) (d : Int) :
    ((updateEntry l t d).map Prod.snd).sum = (l.map Prod.snd).sum + d := by
  induction l with
  | nil => simp [updateEntry]
  | cons hd tl ih =>
      obtain ⟨t0, c⟩ := hd
      by_cases h : t = t0
      · simp [updateEntry, h]
        ring
      · simp [updateEntry, h, ih]
        ring

theorem total_apply {T : Type} [DecidableEq T]
    (m : CountMap T) (t : T) (d : Int) :
    (m.apply t d).total = m.total + d := by
  simpa [CountMap.apply, CountMap.total] using total_updateEntry m.updates t d

theorem total_applyOp {T : Type} [DecidableEq T]
    (m : CountMap T) (op : CapOp T) :
    (applyOp m op).total = m.total + op.net := by
  cases op with
  | mintOp t => simp [applyOp, CapOp.net, total_apply]
  | cloneOp t => simp [applyOp, CapOp.net, total_apply]
  | delayedOp t t2 => simp [applyOp, CapOp.net, total_apply]
  | dropOp t => simp [applyOp, CapOp.net, total_apply]

theorem total_applyOps {T : Type} [DecidableEq T]
    (ops : List (CapOp T)) (m : CountMap T) :
    (applyOps ops m).total = m.total + (ops.map CapOp.net).sum := by
  induction ops generalizing m with
  | nil => simp [applyOps]
  | cons op rest ih =>
      simp only [applyOps, List.foldl_cons] at *
      rw [ih (applyOp m op), total_applyOp]
      simp
      ring

theorem net_sum_counts {T : Type} (ops : List (CapOp T)) :
    (ops.map CapOp.net).sum =
      ((clones ops + mints ops + delays ops : Int))
        - ((drops ops + delays ops : Int)) := by
  induction ops with
  | nil => simp [mints, clones, delays, drops]
  | cons op rest ih =>
      cases op with
      | mintOp t =>
          simp [mints, clones, delays, drops, CapOp.net,
            List.filter_cons] at *
          linarith
      | cloneOp t =>
          simp [mints, clones, delays, drops, CapOp.net,
            List.filter_cons] at *
          linarith
      | delayedOp t t2 =>
          simp [mints, clones, delays, drops, CapOp.net,
            List.filter_cons] at *
          linarith
      | dropOp t =>
          simp [mints, clones, delays, drops, CapOp.net,
            List.filter_cons] at *
          linarith

theorem for_each_processes_queue {T D : Type} [DecidableEq T]
    (q : List (T × List D)) :
    ∀ (c int : CountMap T)
      (logic : Capability T → List D → CountMap T → CountMap T),
      (InputHandle.for_each ⟨⟨q, c⟩, int⟩ logic).internal
          = processQueue logic q int
        ∧ (InputHandle.for_each ⟨⟨q, c⟩, int⟩ logic).pull_counter.queue = [] := by
  induction q with
  | nil =>
      intro c int logic
      rw [InputHandle.for_each]
      simp [InputHandle.next, PullCounter.next, processQueue]
  | cons hd tl ih =>
      intro c int logic
      obtain ⟨t, content⟩ := hd
      rw [InputHandle.for_each]
      simp only [InputHandle.next, PullCounter.next, mint]
      simpa [processQueue] using
        ih (c.apply t (-1))
          ((logic ⟨t⟩ content (int.apply t 1)).apply t (-1)) logic

theorem flush_of_empty {T D : Type} [DecidableEq T]
    (buf : Buffer T D) (hb : buf.buffer = []) : buf.flush = buf := by
  unfold Buffer.flush
  cases ht : buf.time with
  | none => rfl
  | some t => simp [hb]

theorem flush_pushed_at {T D : Type} [DecidableEq T]
    (buf : Buffer T D) {t : T} (ht : buf.time = some t) :
    buf.flush.time = some t ∧
      ∀ p ∈ buf.flush.pusher.pushed, p ∈ buf.pusher.pushed ∨ p.1 = t := by
  by_cases hb : buf.buffer.isEmpty
  · have hfl : buf.flush = buf := by
      unfold Buffer.flush
      rw [ht]
      simp [hb]
    rw [hfl]
    exact ⟨ht, fun p hp => Or.inl hp⟩
  · have hfl : buf.flush
        = { buf with buffer := [], pusher := buf.pusher.push t buf.buffer } := by
      unfold Buffer.flush
      rw [ht]
      simp [hb]
    rw [hfl]
    refine ⟨ht, ?_⟩
    rintro ⟨a, b⟩ hp
    simp only [PushCounter.push, List.mem_append, List.mem_singleton,
      Prod.mk.injEq] at hp
    rcases hp with hp | ⟨ha, hb2⟩
    · exact Or.inl hp
    · exact Or.inr ha

theorem give_pushed_at {T D : Type} [DecidableEq T]
    (buf : Buffer T D) (d : D) {t : T} (ht : buf.time = some t) :
    (buf.give d).time = some t ∧
      ∀ p ∈ (buf.give d).pusher.pushed, p ∈ buf.pusher.pushed ∨ p.1 = t := by
  unfold Buffer.give
  by_cases hlen : (buf.buffer ++ [d]).length = flushThreshold
  · simp only [hlen, if_true]
    exact flush_pushed_at { buf with buffer := buf.buffer ++ [d] } ht
  · simp only [hlen, if_false]
    exact ⟨ht, fun p hp => Or.inl hp⟩

theorem giveMany_pushed_at {T D : Type} [DecidableEq T]
    (ds : List D) :
    ∀ (buf : Buffer T D) (t : T), buf.time = some t →
      (buf.giveMany ds).time = some t ∧
        ∀ p ∈ (buf.giveMany ds).pusher.pushed,
          p ∈ buf.pusher.pushed ∨ p.1 = t := by
  induction ds with
  | nil =>
      intro buf t ht
      exact ⟨ht, fun p hp => Or.inl hp⟩
  | cons d rest ih =>
      intro buf t ht
      have hstep := give_pushed_at buf d ht
      have hrest := ih (buf.give d) t hstep.1
      refine ⟨?_, ?_⟩
      · simpa [Buffer.giveMany] using hrest.1
      · intro p hp
        have hp2 : p ∈ ((buf.give d).giveMany rest).pusher.pushed := by
          simpa [Buffer.giveMany] using hp
        rcases hrest.2 p hp2 with hmem | heq
        · exact hstep.2 p hmem
        · exact Or.inr heq

theorem stepLoop_preserves_result {A T : Type}
    (step : Root A → Root A × Bool) (fuel : Nat) :
    ∀ s : Root A × T, (stepLoop step fuel s).2 = s.2 := by
  induction fuel with
  | zero => intro s; rfl
  | succ n ih =>
      intro s
      unfold stepLoop
      by_cases hc : (step s.1).2
      · simp only [hc, if_true]
        exact ih _
      · simp [hc]

/-- Claim C1: whenever the pull counter returns a timestamp-batch pair,
`InputHandle::next` mints a fresh `Capability` at the received timestamp,
recording `+1` at that timestamp in the operator's Outstanding-Count Map,
and returns the capability paired with the batch; when the pull counter
yields nothing, `next` returns `none`. -/
theorem inputHandle_next_mints_on_pull {T D : Type} [DecidableEq T]
    (ih : InputHandle T D) :
    (∀ (t : T) (content : List D) (pc2 : PullCounter T D),
        ih.pull_counter.next = (some (t, content), pc2) →
        ih.next = (some (⟨t⟩, content), ⟨pc2, ih.internal.apply t 1⟩)) ∧
    (∀ pc2 : PullCounter T D,
        ih.pull_counter.next = (none, pc2) → (ih.next).1 = none) := by
  constructor
  · intro t content pc2 h
    simp [InputHandle.next, h, mint]
  · intro pc2 h
    simp [InputHandle.next, h]

/-- Witness for C1 at concrete inputs: a handle with a batch at time 5
and an exhausted handle. -/
theorem inputHandle_next_mints_on_pull_witness :
    ihOne.next
        = (some (⟨5⟩, [7]),
            ⟨⟨[], CountMap.empty.apply 5 (-1)⟩, CountMap.empty.apply 5 1⟩) ∧
    (ihExhausted.next).1 = none :=
  ⟨(inputHandle_next_mints_on_pull ihOne).1 5 [7]
      ⟨[], CountMap.empty.apply 5 (-1)⟩ (by decide),
   (inputHandle_next_mints_on_pull ihExhausted).2
      ⟨[], CountMap.empty⟩ (by decide)⟩

/-- Claim C2: `delayed(t')` fails exactly when `¬(time() ≤ t')` and
succeeds for every `t'` with `time() ≤ t'`, including `t' = time()`. -/
theorem delayed_succeeds_iff_le {T : Type} [DecidableEq T] [PartialOrder T]
    [DecidableRel (fun a b : T => a ≤ b)]
    (cap : Capability T) (t2 : T) (internal : CountMap T) :
    ((cap.delayed t2 internal).isSome ↔ cap.time ≤ t2) ∧
    (cap.delayed t2 internal = none ↔ ¬cap.time ≤ t2) ∧
    (cap.delayed cap.time internal).isSome := by
  refine ⟨?_, ?_, ?_⟩
  · unfold Capability.delayed
    by_cases h : cap.time ≤ t2 <;> simp [h]
  · unfold Capability.delayed
    by_cases h : cap.time ≤ t2 <;> simp [h]
  · unfold Capability.delayed
    simp

/-- Claim C3: conservation — over any valid operation sequence applied to
one Outstanding-Count Map since the last drain, the sum of recorded
deltas equals (#clones + #mints + #delays-in) - (#drops + #delays-out),
where each `delayed` contributes one delay-in and one delay-out. -/
theorem countMap_conservation {T : Type} [DecidableEq T] [PartialOrder T]
    [DecidableRel (fun a b : T => a ≤ b)]
    (ops : List (CapOp T)) (_hv : ∀ op ∈ ops, validOp op = true) :
    (applyOps ops CountMap.empty).total =
      ((clones ops : Int) + (mints ops : Int) + (delays ops : Int))
        - ((drops ops : Int) + (delays ops : Int)) := by
  have h0 : (CountMap.empty (T := T)).total = 0 := rfl
  rw [total_applyOps, net_sum_counts, h0]
  ring

/-- Witness for C3: the valid sequence mint at 5, clone at 5, drop at 5,
delay 5 to 7. -/
theorem countMap_conservation_witness :
    (∀ op ∈ ([.mintOp 5, .cloneOp 5, .dropOp 5, .delayedOp 5 7] :
        List (CapOp Nat)), validOp op = true) ∧
    (applyOps ([.mintOp 5, .cloneOp 5, .dropOp 5, .delayedOp 5 7] :
        List (CapOp Nat)) CountMap.empty).total =
      ((clones ([.mintOp 5, .cloneOp 5, .dropOp 5, .delayedOp 5 7] :
          List (CapOp Nat)) : Int)
        + (mints ([.mintOp 5, .cloneOp 5, .dropOp 5, .delayedOp 5 7] :
            List (CapOp Nat)) : Int)
        + (delays ([.mintOp 5, .cloneOp 5, .dropOp 5, .delayedOp 5 7] :
            List (CapOp Nat)) : Int))
      - ((drops ([.mintOp 5, .cloneOp 5, .dropOp 5, .delayedOp 5 7] :
            List (CapOp Nat)) : Int)
        + (delays ([.mintOp 5, .cloneOp 5, .dropOp 5, .delayedOp 5 7] :
            List (CapOp Nat)) : Int)) :=
  ⟨by decide, countMap_conservation _ (by decide)⟩

/-- Claim C4: `for_each` invokes `logic` exactly once per queued batch, in
order, until `next` is exhausted, and the minted capability's `-1` is
recorded once at the end of each iteration; in particular three batches at
timestamps 2, 2, 3 processed with a no-op logic leave the map's net
counts at 0 for both timestamps. -/
theorem for_each_once_per_batch {T D : Type} [DecidableEq T]
    (q : List (T × List D)) (c int : CountMap T)
    (logic : Capability T → List D → CountMap T → CountMap T) :
    ((InputHandle.for_each ⟨⟨q, c⟩, int⟩ logic).internal
        = processQueue logic q int) ∧
    ((InputHandle.for_each ⟨⟨q, c⟩, int⟩ logic).pull_counter.queue = []) ∧
    ((InputHandle.for_each ihScenarioB noopLogic).internal.count 2 = 0 ∧
      (InputHandle.for_each ihScenarioB noopLogic).internal.count 3 = 0) := by
  refine ⟨(for_each_processes_queue q c int logic).1,
    (for_each_processes_queue q c int logic).2, ?_, ?_⟩
  · have hsc : (InputHandle.for_each ihScenarioB noopLogic).internal
        = processQueue noopLogic [(2, [10]), (2, [11]), (3, [12])]
            CountMap.empty :=
      (for_each_processes_queue [(2, [10]), (2, [11]), (3, [12])]
        CountMap.empty CountMap.empty noopLogic).1
    rw [hsc]
    decide
  · have hsc : (InputHandle.for_each ihScenarioB noopLogic).internal
        = processQueue noopLogic [(2, [10]), (2, [11]), (3, [12])]
            CountMap.empty :=
      (for_each_processes_queue [(2, [10]), (2, [11]), (3, [12])]
        CountMap.empty CountMap.empty noopLogic).1
    rw [hsc]
    decide

/-- Claim C5: starting from an empty map, mint at 5, clone, drop the
original, delay the clone to 7 leaves net 0 at timestamp 5 and +1 at
timestamp 7 on drain. -/
theorem scenario_mint_clone_drop_delay :
    (let minted := mint 5 (CountMap.empty (T := Nat))
     let cloned := minted.1.clone minted.2
     let afterDrop := minted.1.release cloned.2
     (cloned.1.delayed 7 afterDrop).map
        (fun r => (r.2.drain.1, r.2.count 5, r.2.count 7)))
      = some ([(5, 0), (7, 1)], 0, 1) := by
  decide

/-- Claim C6: `OutputHandle::session(cap)` scopes one send operation to
`cap.time()`: the buffer is rebound to `cap.time()` and, starting from a
flushed staging area, every batch it emits downstream beyond those already
pushed carries the timestamp of the capability presented to `session`;
`session` is the only operation the handle exposes. -/
theorem outputHandle_session_scoped {T D : Type} [DecidableEq T]
    (oh : OutputHandle T D) (cap : Capability T) (ds : List D) :
    ((oh.session cap).push_buffer.time = some cap.time) ∧
    (oh.push_buffer.buffer = [] →
      ∀ p ∈ (((oh.session cap).push_buffer.giveMany ds).flush).pusher.pushed,
        p ∈ oh.push_buffer.pusher.pushed ∨ p.1 = cap.time) := by
  constructor
  · simp [OutputHandle.session, Buffer.session]
  · intro hb p hp
    have hbuf : (oh.session cap).push_buffer
        = { oh.push_buffer with time := some cap.time } := by
      unfold OutputHandle.session Buffer.session
      by_cases ht : oh.push_buffer.time = some cap.time
      · simp [ht]
      · simp [ht, flush_of_empty _ hb]
    have h1 := giveMany_pushed_at ds ((oh.session cap).push_buffer)
      cap.time (by rw [hbuf])
    have h2 := flush_pushed_at ((oh.session cap).push_buffer.giveMany ds)
      h1.1
    rcases h2.2 p hp with hmem | heq
    · rcases h1.2 p hmem with hmem2 | heq2
      · left
        rw [hbuf] at hmem2
        exact hmem2
      · exact Or.inr heq2
    · exact Or.inr heq

/-- Witness for C6: a fresh handle, a capability at time 4, and three
records. -/
theorem outputHandle_session_scoped_witness :
    ((ohFresh.session ⟨4⟩).push_buffer.time = some 4) ∧
    ((4, [1, 2, 3]) ∈ ohFresh.push_buffer.pusher.pushed ∨
      ((4 : Nat), ([1, 2, 3] : List Nat)).1 = 4) :=
  ⟨(outputHandle_session_scoped ohFresh ⟨4⟩ [1, 2, 3]).1,
   (outputHandle_session_scoped ohFresh ⟨4⟩ [1, 2, 3]).2 rfl
      (4, [1, 2, 3]) (by decide)⟩

set_option maxRecDepth 10000 in
/-- Claim C7: a session opened at t = 4 and given 100 records (below the
flush threshold) pushes nothing during the sends; when the handle's scope
ends the buffer is flushed exactly once, the flush contains all staged
records, and exactly one +1 is applied to the downstream accounting for
t = 4. -/
theorem scope_end_flush_scenario :
    ((ohFresh.session ⟨4⟩).push_buffer.giveMany recsC).pusher.pushed = [] ∧
    ((ohFresh.session ⟨4⟩).push_buffer.giveMany recsC).buffer = recsC ∧
    (OutputHandle.scopeEnd
        ⟨(ohFresh.session ⟨4⟩).push_buffer.giveMany recsC⟩).push_buffer.pusher.pushed
      = [(4, recsC)] ∧
    (OutputHandle.scopeEnd
        ⟨(ohFresh.session ⟨4⟩).push_buffer.giveMany recsC⟩).push_buffer.pusher.produced.count 4
      = 1 ∧
    (OutputHandle.scopeEnd
        ⟨(ohFresh.session ⟨4⟩).push_buffer.giveMany recsC⟩).push_buffer.buffer
      = [] := by
  decide

/-- Claim C8: drain resets the accumulated deltas to empty, so a second
drain with no intervening apply yields an empty delta set. -/
theorem drain_idempotent {T : Type} (m : CountMap T) :
    m.drain.2 = CountMap.empty ∧ (m.drain.2.drain).1 = [] :=
  ⟨rfl, rfl⟩

/-- Claim C9: when the pull counter yields no batch, `InputHandle::next`
returns `none` and leaves the handle — in particular the operator's
shared Outstanding-Count Map — completely unchanged. -/
theorem next_none_frame {T D : Type} [DecidableEq T]
    (ih : InputHandle T D) (h : (ih.pull_counter.next).1 = none) :
    ih.next = (none, ih) := by
  cases hq : ih.pull_counter.queue with
  | nil => simp [InputHandle.next, PullCounter.next, hq]
  | cons hd tl =>
      exfalso
      obtain ⟨t, content⟩ := hd
      simp [PullCounter.next, hq] at h

/-- Witness for C9: the exhausted handle. -/
theorem next_none_frame_witness : ihExhausted.next = (none, ihExhausted) :=
  next_none_frame ihExhausted (by decide)

/-- Claim C10: in `execute`, the per-worker closure `func` runs exactly
once per worker and its result is captured before the step loop; the same
value is returned via the worker guards after the loop completes,
whatever the scheduler `step` does and however many steps run. -/
theorem execute_runs_func_once_per_worker {A T : Type}
    (allocators : List A) (func : Root A → Root A × T)
    (step : Root A → Root A × Bool) (fuel : Nat) :
    execute allocators func step fuel
      = allocators.map (fun a => (func (Root.new a)).2) := by
  have hfun : workerLogic func step fuel
      = fun a => (func (Root.new a)).2 := by
    funext a
    unfold workerLogic
    rw [stepLoop_preserves_result]
  unfold execute
  rw [hfun]
